import Mathlib

/-!
Shallow embedding of the QwikRead extractive summarizer (popup script,
function `extractiveSummarize`) and proofs about it.

Strings are modelled as `List Char`.  JavaScript regular-expression
character classes are modelled over the ASCII fragment the algorithm
manipulates: `\w` is `[A-Za-z0-9_]`, `\s` is the common whitespace
characters, `.` in a regex does not match line terminators.  JavaScript
float arithmetic is idealized as exact arithmetic: the four sub-scores
that only use rational operations live in `ℚ`, the length score uses
`Real.exp`.
-/

namespace QwikRead

/-- Model of the JavaScript `\w` class (ASCII word character). -/
def isWordChar (c : Char) : Bool :=
  c.isAlphanum || c == '_'

/-- Model of the JavaScript `\s` class (whitespace). -/
def isSpaceChar (c : Char) : Bool :=
  c == ' ' || c == '\t' || c == '\n' || c == '\r' || c == '\x0b' || c == '\x0c'

/-- Sentence terminator characters `.`, `!`, `?`. -/
def isTerm (c : Char) : Bool :=
  c == '.' || c == '!' || c == '?'

/-- Characters kept by cleaning step 6 (`[^\w\s.!?]` is removed). -/
def isKeep (c : Char) : Bool :=
  isWordChar c || isSpaceChar c || isTerm c

/-- Line terminators for the multiline `^`-removal pass. -/
def isEol (c : Char) : Bool :=
  c == '\n' || c == '\r'

/-- Step 1 of cleaning, `replace(/\[[^\]]*\]/g, '')`: scanner state.
`bufr` holds, in reverse, the characters seen after an still-open `[`.
An open `[` with no later `]` is emitted literally at end of input
(no characters in `bufr` can start a bracket match, since none is
followed by a `]`). -/
def removeBracketsAux (bufr : Option (List Char)) : List Char → List Char
  | [] =>
    match bufr with
    | some buf => '[' :: buf.reverse
    | none => []
  | c :: rest =>
    match bufr with
    | some buf =>
      if c = ']' then removeBracketsAux none rest
      else removeBracketsAux (some (c :: buf)) rest
    | none =>
      if c = '[' then removeBracketsAux (some []) rest
      else c :: removeBracketsAux none rest

/-- Step 1 of cleaning: remove citation markers `[...]`. -/
def removeBrackets (l : List Char) : List Char :=
  removeBracketsAux none l

/-- Step 2 of cleaning, `replace(/\^.*$/gm, '')`: from a literal `^`,
drop every character up to (excluding) the next line terminator. -/
def removeCaretsAux (skipping : Bool) : List Char → List Char
  | [] => []
  | c :: rest =>
    if isEol c then c :: removeCaretsAux false rest
    else if skipping then removeCaretsAux true rest
    else if c = '^' then removeCaretsAux true rest
    else c :: removeCaretsAux false rest

/-- Step 2 of cleaning: remove `^`-to-end-of-line stretches. -/
def removeCarets (l : List Char) : List Char :=
  removeCaretsAux false l

/-- Step 3 of cleaning, `replace(/https?:\/\/\S+/g, '')`: scanner.
When `inUrl` is set we are consuming the `\S+` part of a URL.  A
`http(s)://` prefix followed by whitespace is not a match (`\S+` needs
at least one character), so its characters are emitted and scanning
resumes; none of `t`, `p`, `s`, `:`, `/` can start a URL, hence
emitting the whole prefix is faithful to per-position rescanning. -/
def removeUrlsAux : Bool → List Char → List Char
  | _, [] => []
  | true, c :: rest =>
    if isSpaceChar c then c :: removeUrlsAux false rest
    else removeUrlsAux true rest
  | false, 'h' :: 't' :: 't' :: 'p' :: 's' :: ':' :: '/' :: '/' :: d :: rest2 =>
    if isSpaceChar d then
      'h' :: 't' :: 't' :: 'p' :: 's' :: ':' :: '/' :: '/' :: d :: removeUrlsAux false rest2
    else removeUrlsAux true rest2
  | false, 'h' :: 't' :: 't' :: 'p' :: ':' :: '/' :: '/' :: d :: rest2 =>
    if isSpaceChar d then
      'h' :: 't' :: 't' :: 'p' :: ':' :: '/' :: '/' :: d :: removeUrlsAux false rest2
    else removeUrlsAux true rest2
  | false, c :: rest => c :: removeUrlsAux false rest

/-- Step 3 of cleaning: remove URLs (`https?://` then at least one
non-whitespace character). -/
def removeUrls (l : List Char) : List Char :=
  removeUrlsAux false l

/-- Step 4 of cleaning, `replace(/\(.*?\)/g, '')`: scanner.  `bufr`
holds, in reverse, the characters after an open `(`.  Since `.` does not
match line terminators, the parenthetical is abandoned (and emitted
literally) when a line terminator or end of input arrives first. -/
def removeParensAux (bufr : Option (List Char)) : List Char → List Char
  | [] =>
    match bufr with
    | some buf => '(' :: buf.reverse
    | none => []
  | c :: rest =>
    match bufr with
    | some buf =>
      if c = ')' then removeParensAux none rest
      else if isEol c then ('(' :: buf.reverse) ++ (c :: removeParensAux none rest)
      else removeParensAux (some (c :: buf)) rest
    | none =>
      if c = '(' then removeParensAux (some []) rest
      else c :: removeParensAux none rest

/-- Step 4 of cleaning: remove parenthetical content `(...)`. -/
def removeParens (l : List Char) : List Char :=
  removeParensAux none l

/-- Step 5 of cleaning, `replace(/\s+/g, ' ')`: collapse every maximal
whitespace run to a single space.  `prevSpace` records whether the
previous character belonged to a whitespace run. -/
def collapseWsAux (prevSpace : Bool) : List Char → List Char
  | [] => []
  | c :: rest =>
    if isSpaceChar c then
      if prevSpace then collapseWsAux true rest
      else ' ' :: collapseWsAux true rest
    else c :: collapseWsAux false rest

/-- Step 5 of cleaning: whitespace collapsing. -/
def collapseWs (l : List Char) : List Char :=
  collapseWsAux false l

/-- Step 6 of cleaning, `replace(/[^\w\s.!?]/g, '')`. -/
def stripSpecials (l : List Char) : List Char :=
  l.filter isKeep

/-- Step 7 of cleaning, `trim()`. -/
def trimChars (l : List Char) : List Char :=
  ((l.dropWhile isSpaceChar).reverse.dropWhile isSpaceChar).reverse

/-- The `cleaned` value of `extractiveSummarize` (source lines 13-20):
the seven cleaning passes in source order. -/
def normalizeText (l : List Char) : List Char :=
  trimChars (stripSpecials (collapseWs (removeParens (removeUrls (removeCarets (removeBrackets l))))))

/-- Sentence splitting, `cleaned.match(/[^.!?]+(?:[.!?]+["']?|$)/g) || []`
(source lines 23-24), as a scanner.  `cur` holds the current match in
reverse; `inTerms` is set once the terminator run of the current match
has started; `started` is set when a match is in progress. -/
def splitSentAux (cur : List Char) (inTerms started : Bool) : List Char → List (List Char)
  | [] => if started then [cur.reverse] else []
  | c :: rest =>
    if isTerm c then
      if started then splitSentAux (c :: cur) true true rest
      else splitSentAux [] false false rest
    else
      if inTerms then
        if c = Char.ofNat 34 || c = Char.ofNat 39 then
          (c :: cur).reverse :: splitSentAux [] false false rest
        else
          cur.reverse :: splitSentAux [c] false true rest
      else splitSentAux (c :: cur) false true rest

/-- The `sentences` list of `extractiveSummarize`. -/
def splitSentences (l : List Char) : List (List Char) :=
  splitSentAux [] false false l

/-- Invariant of the segmentation scanner, used in the proofs: after
the first terminator of a segment, every character is a terminator or
a closing quote (`\x22`/`\x27`). -/
def segTermsOnly (s : List Char) : Bool :=
  (s.dropWhile (fun c => !isTerm c)).all
    (fun c => isTerm c || c == Char.ofNat 34 || c == Char.ofNat 39)

/-- Number of maximal whitespace runs in a string (the number of global
matches of `/\s+/`). -/
def wsRunsAux (inWs : Bool) : List Char → Nat
  | [] => 0
  | c :: rest =>
    if isSpaceChar c then
      (if inWs then 0 else 1) + wsRunsAux true rest
    else wsRunsAux false rest

/-- Number of maximal whitespace runs in a string. -/
def wsRuns (l : List Char) : Nat :=
  wsRunsAux false l

/-- Length of the array `s.split(/\s+/)` in JavaScript: one more than
the number of separator matches, and `[""]` for the empty string. -/
def jsSplitWsLen (l : List Char) : Nat :=
  if l.isEmpty then 1 else wsRuns l + 1

/-- Bool test for `pat` being a prefix of `l`. -/
def startsWithSeg : List Char → List Char → Bool
  | [], _ => true
  | _ :: _, [] => false
  | p :: ps, c :: cs => p == c && startsWithSeg ps cs

/-- Bool test for `pat` occurring as a contiguous substring of the
second argument (JavaScript `includes`). -/
def listHasSub (pat : List Char) : List Char → Bool
  | [] => startsWithSeg pat []
  | c :: rest => startsWithSeg pat (c :: rest) || listHasSub pat rest

/-- JavaScript `toLowerCase`, restricted to ASCII case folding. -/
def jsToLower (l : List Char) : List Char :=
  l.map Char.toLower

/-- Test for `/^\s*\d+\.\s*/.test(s)`: optional leading whitespace,
one or more digits, then a literal dot (the trailing `\s*` always
matches). -/
def startsNumbered (s : List Char) : Bool :=
  let afterWs := s.dropWhile isSpaceChar
  !(afterWs.takeWhile Char.isDigit).isEmpty &&
    (match afterWs.dropWhile Char.isDigit with
     | '.' :: _ => true
     | _ => false)

/-- The filter predicate of source lines 29-43, applied to an already
trimmed candidate sentence.  `\x7b`/`\x7d` are the brace characters. -/
def survives (s : List Char) : Bool :=
  !(jsSplitWsLen s < 4 || s.length < 20) &&
  !(listHasSub ("import ".toList) s || listHasSub ("def ".toList) s ||
    listHasSub ("= ".toList) s || s.contains '\x7b' || s.contains '\x7d') &&
  !(startsWithSeg ("^".toList) s || startsWithSeg ("http".toList) s || startsNumbered s) &&
  !(listHasSub ("click here".toList) (jsToLower s) || listHasSub ("next page".toList) (jsToLower s))

/-- The `validSentences` value (source lines 27-43). -/
def validSentencesOf (text : List Char) : List (List Char) :=
  ((splitSentences (normalizeText text)).map trimChars).filter survives

/-- The stop-word set of source lines 48-55. -/
def stopWords : List (List Char) :=
  ["a", "an", "the", "and", "or", "but", "is", "are", "was", "were",
   "to", "of", "in", "for", "with", "on", "at", "by", "this", "that",
   "there", "here", "what", "where", "when", "how", "all", "any",
   "both", "each", "few", "more", "most", "other", "some", "such",
   "no", "nor", "not", "only", "own", "same", "so", "than", "too",
   "very", "can", "will", "just", "should", "now", "click", "page"].map String.toList

/-- Membership in the stop-word set (`stopWords.has`). -/
def isStop (w : List Char) : Bool :=
  stopWords.contains w

/-- Word tokenization `match(/\b\w+\b/g) || []`: the maximal runs of
word characters.  `cur` holds the current run in reverse. -/
def wordsAux (cur : List Char) (inWord : Bool) : List Char → List (List Char)
  | [] => if inWord then [cur.reverse] else []
  | c :: rest =>
    if isWordChar c then wordsAux (c :: cur) true rest
    else if inWord then cur.reverse :: wordsAux [] false rest
    else wordsAux [] false rest

/-- Maximal word-character runs of a string. -/
def wordsOf (l : List Char) : List (List Char) :=
  wordsAux [] false l

/-- The `words` value used both in the frequency model and in scoring:
`sentence.toLowerCase().match(/\b\w+\b/g) || []` (source lines 62, 80). -/
def tokensOf (s : List Char) : List (List Char) :=
  wordsOf (jsToLower s)

/-- Point update of a frequency table (`m[w] = (m[w] || 0) + 1`). -/
def bump (m : List Char → Nat) (w : List Char) : List Char → Nat :=
  fun x => if x = w then m w + 1 else m x

/-- Inner loop of the word-frequency build (source lines 63-67): bump
every token that is not a stop word and has length > 2. -/
def addWordCounts (m : List Char → Nat) : List (List Char) → (List Char → Nat)
  | [] => m
  | w :: ws => addWordCounts (if !isStop w && decide (2 < w.length) then bump m w else m) ws

/-- The `wordFreq` table built over a list of sentences (source
lines 58-67). -/
def buildWordFreq (sents : List (List Char)) : List Char → Nat :=
  sents.foldl (fun m s => addWordCounts m (tokensOf s)) (fun _ => 0)

/-- Adjacent pairs of a list (the 2-grams `words.slice(i, i + 2)`). -/
def adjPairs : List α → List (α × α)
  | a :: b :: rest => (a, b) :: adjPairs (b :: rest)
  | _ => []

/-- A 2-gram key: the two words joined with a single space. -/
def phraseKey (a b : List Char) : List Char :=
  a ++ ' ' :: b

/-- Inner loop of the phrase-frequency build (source lines 70-75): bump
the key of every adjacent pair whose two members are non-stop-words. -/
def addPhraseCounts (m : List Char → Nat) : List (List Char × List Char) → (List Char → Nat)
  | [] => m
  | p :: ps => addPhraseCounts (if !isStop p.1 && !isStop p.2 then bump m (phraseKey p.1 p.2) else m) ps

/-- The `phraseFreq` table built over a list of sentences (source
lines 59-76). -/
def buildPhraseFreq (sents : List (List Char)) : List Char → Nat :=
  sents.foldl (fun m s => addPhraseCounts m (adjPairs (tokensOf s))) (fun _ => 0)

/-- The non-stop-word tokens of a token list (`words.filter(word =>
!stopWords.has(word))`). -/
def nonStopTokens (ws : List (List Char)) : List (List Char) :=
  ws.filter (fun w => !isStop w)

/-- The `frequencyScore` of source lines 83-86: mean of `wordFreq` over
non-stop-word tokens, with denominator `(length || 1)`. -/
def frequencyScore (wf : List Char → Nat) (ws : List (List Char)) : ℚ :=
  (((nonStopTokens ws).map (fun w => (wf w : ℚ))).sum) /
    (if (nonStopTokens ws).length = 0 then 1 else ((nonStopTokens ws).length : ℚ))

/-- The `phraseScore` of source lines 89-93: sum of `phraseFreq` over
all adjacent 2-grams, with denominator `(words.length || 1)`. -/
def phraseScore (pf : List Char → Nat) (ws : List (List Char)) : ℚ :=
  (((adjPairs ws).map (fun p => (pf (phraseKey p.1 p.2) : ℚ))).sum) /
    (if ws.length = 0 then 1 else (ws.length : ℚ))

/-- The `positionScore` of source lines 96-100.  JavaScript float
literals `0.2` and `0.8` are idealized as the exact rationals. -/
def positionScore (total idx : Nat) : ℚ :=
  if (idx : ℚ) < (total : ℚ) * (2/10) then 1 - (idx : ℚ) / ((total : ℚ) * (2/10))
  else if (idx : ℚ) > (total : ℚ) * (8/10) then
    ((idx : ℚ) - (total : ℚ) * (8/10)) / ((total : ℚ) * (2/10))
  else 2/10

/-- The `lengthScore` of source line 103:
`Math.exp(-(Math.abs(words.length - 20) / 20))`. -/
noncomputable def lengthScore (n : Nat) : ℝ :=
  Real.exp (-(|(n : ℝ) - 20| / 20))

/-- The `diversityScore` of source lines 106-107: distinct
non-stop-word tokens over token count.  The `x / 0 = 0` convention of
`ℚ` stands in for the unreachable `NaN` of an empty token list. -/
def diversityScore (ws : List (List Char)) : ℚ :=
  (((nonStopTokens ws).dedup).length : ℚ) / (ws.length : ℚ)

/-- The `finalScore` of source lines 110-116: the weighted sum of the
five sub-scores, in source order. -/
noncomputable def finalScore (wf pf : List Char → Nat) (total idx : Nat) (s : List Char) : ℝ :=
  ((frequencyScore wf (tokensOf s) : ℝ)) * (3/10) +
  ((phraseScore pf (tokensOf s) : ℝ)) * (2/10) +
  ((positionScore total idx : ℝ)) * (2/10) +
  (lengthScore (tokensOf s).length) * (15/100) +
  ((diversityScore (tokensOf s) : ℝ)) * (15/100)

/-- One element of `sentenceScores` (source lines 118-122). -/
structure ScoredSentence where
  sentence : List Char
  originalIndex : Nat
  score : ℝ

/-- The `sentenceScores` list (source lines 79-123). -/
noncomputable def sentenceScores (valid : List (List Char)) : List ScoredSentence :=
  (valid.enum).map (fun p =>
    { sentence := trimChars p.2
      originalIndex := p.1
      score := finalScore (buildWordFreq valid) (buildPhraseFreq valid) valid.length p.1 p.2 })

/-- Stable insertion of one element for the sort model: `a` is placed
before the first already-present element `b` with `le a b`. -/
def insertBy (le : α → α → Bool) (a : α) : List α → List α
  | [] => [a]
  | b :: l => if le a b then a :: b :: l else b :: insertBy le a l

/-- Stable insertion sort, the model of `Array.prototype.sort` (stable
per the ECMAScript specification). -/
def sortBy (le : α → α → Bool) : List α → List α
  | [] => []
  | a :: l => insertBy le a (sortBy le l)

/-- Comparator `(a, b) => b.score - a.score`: descending by score. -/
noncomputable def scoreDesc (a b : ScoredSentence) : Bool :=
  decide (b.score ≤ a.score)

/-- Comparator `(a, b) => a.originalIndex - b.originalIndex`:
ascending by original index. -/
def idxAsc (a b : ScoredSentence) : Bool :=
  a.originalIndex ≤ b.originalIndex

/-- JavaScript `slice(0, e)` with a possibly negative end index. -/
def jsSliceTo (l : List α) (e : Int) : List α :=
  if 0 ≤ e then l.take e.toNat else l.take (l.length - (-e).toNat)

/-- The `topSentences` value (source lines 126-130): sort descending by
score, slice the first `numSentences`, restore original order, keep the
texts. -/
noncomputable def topSentences (valid : List (List Char)) (numSentences : Int) : List (List Char) :=
  (sortBy idxAsc (jsSliceTo (sortBy scoreDesc (sentenceScores valid)) numSentences)).map
    ScoredSentence.sentence

/-- Single-space join (`join(' ')`). -/
def joinSpace (l : List (List Char)) : List Char :=
  List.intercalate [' '] l

/-- The sentence list finally joined by `extractiveSummarize`: the
short-circuit branch of line 45 or the scored branch of line 132. -/
noncomputable def selectedSentences (text : List Char) (numSentences : Int) : List (List Char) :=
  if ((validSentencesOf text).length : Int) ≤ numSentences then validSentencesOf text
  else topSentences (validSentencesOf text) numSentences

/-- The function `extractiveSummarize(text, numSentences = 5)` of
source lines 11-133.  The count is an `Int` so that the behavior on
zero and negative requests is captured. -/
noncomputable def extractiveSummarize (text : List Char) (numSentences : Int) : List Char :=
  if ((validSentencesOf text).length : Int) ≤ numSentences then
    joinSpace (validSentencesOf text)
  else joinSpace (topSentences (validSentencesOf text) numSentences)

/-- The end-to-end scenario input of spec §8. -/
def scenarioInput : List Char :=
  "The cat sat on the mat. [1] A much longer sentence about cats and their habits in urban environments follows here. http://example.com Another long descriptive sentence about feline behavior and city life continues the narrative.".toList

/-- First sentence of the scenario after normalization. -/
def scenarioS0 : List Char := "The cat sat on the mat.".toList

/-- Second sentence of the scenario after normalization. -/
def scenarioS1 : List Char :=
  "A much longer sentence about cats and their habits in urban environments follows here.".toList

/-- Third sentence of the scenario after normalization. -/
def scenarioS2 : List Char :=
  "Another long descriptive sentence about feline behavior and city life continues the narrative.".toList

/-! ### Helper lemmas -/

theorem dropWhile_dropWhile (p : Char → Bool) (l : List Char) :
    (l.dropWhile p).dropWhile p = l.dropWhile p := by
  induction l with
  | nil => rfl
  | cons c rest ih =>
    by_cases h : p c
    · simp [List.dropWhile_cons, h, ih]
    · simp [List.dropWhile_cons, h]

theorem dropWhile_take_of_dropWhile_eq_self (p : Char → Bool) (l : List Char)
    (h : l.dropWhile p = l) (n : Nat) : (l.take n).dropWhile p = l.take n := by
  cases l with
  | nil => simp
  | cons c rest =>
    cases n with
    | zero => simp
    | succ m =>
      have hc : p c = false := by
        by_cases hc' : p c
        · exfalso
          rw [List.dropWhile_cons, if_pos hc'] at h
          have hlen : (rest.dropWhile p).length ≤ rest.length :=
            (List.dropWhile_suffix p).sublist.length_le
          have := congrArg List.length h
          simp at this
          omega
        · simpa using hc'
      simp [List.take_succ_cons, List.dropWhile_cons, hc]

theorem trimChars_trim (l : List Char) : trimChars (trimChars l) = trimChars l := by
  unfold trimChars
  have hD : (l.dropWhile isSpaceChar).dropWhile isSpaceChar = l.dropWhile isSpaceChar :=
    dropWhile_dropWhile _ l
  have hpre : ((l.dropWhile isSpaceChar).reverse.dropWhile isSpaceChar).reverse <+:
      l.dropWhile isSpaceChar := by
    conv_rhs => rw [← List.reverse_reverse (l.dropWhile isSpaceChar)]
    exact List.reverse_prefix.mpr (List.dropWhile_suffix _)
  have h1 : (((l.dropWhile isSpaceChar).reverse.dropWhile isSpaceChar).reverse).dropWhile
      isSpaceChar = ((l.dropWhile isSpaceChar).reverse.dropWhile isSpaceChar).reverse := by
    rw [List.prefix_iff_eq_take.mp hpre]
    exact dropWhile_take_of_dropWhile_eq_self _ _ hD _
  rw [h1, List.reverse_reverse, dropWhile_dropWhile]

theorem mem_of_mem_trimChars {c : Char} {l : List Char} (h : c ∈ trimChars l) : c ∈ l := by
  unfold trimChars at h
  rw [List.mem_reverse] at h
  have h2 := (List.dropWhile_suffix isSpaceChar).sublist.subset h
  rw [List.mem_reverse] at h2
  exact (List.dropWhile_suffix isSpaceChar).sublist.subset h2

theorem insertBy_perm (le : α → α → Bool) (a : α) (l : List α) :
    List.Perm (insertBy le a l) (a :: l) := by
  induction l with
  | nil => rfl
  | cons b t ih =>
    by_cases h : le a b
    · simp [insertBy, h]
    · simp only [insertBy, if_neg h]
      exact (ih.cons b).trans (List.Perm.swap a b t)

theorem sortBy_perm (le : α → α → Bool) (l : List α) : List.Perm (sortBy le l) l := by
  induction l with
  | nil => rfl
  | cons a t ih => exact (insertBy_perm le a (sortBy le t)).trans (ih.cons a)

theorem sortBy_length (le : α → α → Bool) (l : List α) :
    (sortBy le l).length = l.length :=
  (sortBy_perm le l).length_eq

theorem insertBy_pairwise (le : α → α → Bool) (htot : ∀ a b, le a b ∨ le b a)
    (htrans : ∀ a b c, le a b → le b c → le a c) (a : α) (l : List α)
    (hl : l.Pairwise (fun x y => le x y)) :
    (insertBy le a l).Pairwise (fun x y => le x y) := by
  induction l with
  | nil => simp [insertBy]
  | cons b t ih =>
    rw [List.pairwise_cons] at hl
    obtain ⟨hb, ht⟩ := hl
    by_cases h : le a b
    · simp only [insertBy, if_pos h]
      rw [List.pairwise_cons]
      refine ⟨?_, List.pairwise_cons.mpr ⟨hb, ht⟩⟩
      intro y hy
      rcases List.mem_cons.mp hy with hy | hy
      · subst hy; exact h
      · exact htrans a b y h (hb y hy)
    · simp only [insertBy, if_neg h]
      rw [List.pairwise_cons]
      refine ⟨?_, ih ht⟩
      intro y hy
      have hy' := (insertBy_perm le a t).mem_iff.mp hy
      rcases List.mem_cons.mp hy' with hy' | hy'
      · rw [hy']
        rcases htot a b with h' | h'
        · exact absurd h' h
        · exact h'
      · exact hb y hy'

theorem sortBy_pairwise (le : α → α → Bool) (htot : ∀ a b, le a b ∨ le b a)
    (htrans : ∀ a b c, le a b → le b c → le a c) (l : List α) :
    (sortBy le l).Pairwise (fun x y => le x y) := by
  induction l with
  | nil => simp [sortBy]
  | cons a t ih => exact insertBy_pairwise le htot htrans a (sortBy le t) ih

theorem sentenceScores_length (valid : List (List Char)) :
    (sentenceScores valid).length = valid.length := by
  simp [sentenceScores]

theorem jsSliceTo_zero (l : List α) : jsSliceTo l 0 = [] := by
  simp [jsSliceTo]

theorem frequencyScore_eq_nat (wf : List Char → Nat) (ws : List (List Char)) :
    frequencyScore wf ws =
      ((((nonStopTokens ws).map wf).sum : ℕ) : ℚ) /
        (if (nonStopTokens ws).length = 0 then 1 else ((nonStopTokens ws).length : ℚ)) := by
  rw [frequencyScore, Nat.cast_list_sum, List.map_map]
  rfl

theorem phraseScore_eq_nat (pf : List Char → Nat) (ws : List (List Char)) :
    phraseScore pf ws =
      ((((adjPairs ws).map (fun p => pf (phraseKey p.1 p.2))).sum : ℕ) : ℚ) /
        (if ws.length = 0 then 1 else (ws.length : ℚ)) := by
  rw [phraseScore, Nat.cast_list_sum, List.map_map]
  rfl

theorem top2_of_three (a b c : ScoredSentence)
    (hab : a.score < b.score) (hac : a.score < c.score)
    (hbc : b.originalIndex ≤ c.originalIndex)
    (hcb : ¬ c.originalIndex ≤ b.originalIndex) :
    (sortBy idxAsc (jsSliceTo (sortBy scoreDesc [a, b, c]) 2)).map ScoredSentence.sentence =
      [b.sentence, c.sentence] := by
  have d2 : scoreDesc a b = false := decide_eq_false (not_le.mpr hab)
  have d3 : scoreDesc a c = false := decide_eq_false (not_le.mpr hac)
  have d4 : idxAsc b c = true := decide_eq_true hbc
  have d5 : idxAsc c b = false := decide_eq_false hcb
  by_cases hbc' : c.score ≤ b.score
  · have d1 : scoreDesc b c = true := decide_eq_true hbc'
    have h1 : sortBy scoreDesc [a, b, c] = [b, c, a] := by
      simp [sortBy, insertBy, d1, d2, d3]
    rw [h1, show jsSliceTo [b, c, a] 2 = [b, c] from by simp [jsSliceTo]]
    simp [sortBy, insertBy, d4]
  · have d1 : scoreDesc b c = false := decide_eq_false hbc'
    have h1 : sortBy scoreDesc [a, b, c] = [c, b, a] := by
      simp [sortBy, insertBy, d1, d2, d3]
    rw [h1, show jsSliceTo [c, b, a] 2 = [c, b] from by simp [jsSliceTo]]
    simp [sortBy, insertBy, d5]

set_option maxRecDepth 40000 in
theorem scenarioValid :
    validSentencesOf scenarioInput = [scenarioS0, scenarioS1, scenarioS2] := by
  decide

set_option maxRecDepth 40000 in
theorem scenarioScore0 :
    finalScore (buildWordFreq [scenarioS0, scenarioS1, scenarioS2])
      (buildPhraseFreq [scenarioS0, scenarioS1, scenarioS2]) 3 0 scenarioS0 =
      73/120 + Real.exp (-(7/10)) * (3/20) := by
  rw [finalScore, frequencyScore_eq_nat, phraseScore_eq_nat]
  rw [show (((nonStopTokens (tokensOf scenarioS0)).map
    (buildWordFreq [scenarioS0, scenarioS1, scenarioS2])).sum) = 3 from by decide]
  rw [show (nonStopTokens (tokensOf scenarioS0)).length = 3 from by decide]
  rw [show (((adjPairs (tokensOf scenarioS0)).map (fun p =>
    buildPhraseFreq [scenarioS0, scenarioS1, scenarioS2] (phraseKey p.1 p.2))).sum) = 1 from by decide]
  rw [show (tokensOf scenarioS0).length = 6 from by decide]
  rw [show positionScore 3 0 = 1 from by norm_num [positionScore]]
  rw [diversityScore]
  rw [show ((nonStopTokens (tokensOf scenarioS0)).dedup).length = 3 from by decide]
  rw [show (tokensOf scenarioS0).length = 6 from by decide]
  rw [lengthScore]
  push_cast
  norm_num
  ring_nf

set_option maxRecDepth 40000 in
theorem scenarioScore1 :
    finalScore (buildWordFreq [scenarioS0, scenarioS1, scenarioS2])
      (buildPhraseFreq [scenarioS0, scenarioS1, scenarioS2]) 3 1 scenarioS1 =
      87/140 + Real.exp (-(3/10)) * (3/20) := by
  rw [finalScore, frequencyScore_eq_nat, phraseScore_eq_nat]
  rw [show (((nonStopTokens (tokensOf scenarioS1)).map
    (buildWordFreq [scenarioS0, scenarioS1, scenarioS2])).sum) = 12 from by decide]
  rw [show (nonStopTokens (tokensOf scenarioS1)).length = 10 from by decide]
  rw [show (((adjPairs (tokensOf scenarioS1)).map (fun p =>
    buildPhraseFreq [scenarioS0, scenarioS1, scenarioS2] (phraseKey p.1 p.2))).sum) = 8 from by decide]
  rw [show (tokensOf scenarioS1).length = 14 from by decide]
  rw [show positionScore 3 1 = 2/10 from by norm_num [positionScore]]
  rw [diversityScore]
  rw [show ((nonStopTokens (tokensOf scenarioS1)).dedup).length = 10 from by decide]
  rw [show (tokensOf scenarioS1).length = 14 from by decide]
  rw [lengthScore]
  push_cast
  norm_num
  ring_nf

set_option maxRecDepth 40000 in
theorem scenarioScore2 :
    finalScore (buildWordFreq [scenarioS0, scenarioS1, scenarioS2])
      (buildPhraseFreq [scenarioS0, scenarioS1, scenarioS2]) 3 2 scenarioS2 =
      9437/14300 + Real.exp (-(7/20)) * (3/20) := by
  rw [finalScore, frequencyScore_eq_nat, phraseScore_eq_nat]
  rw [show (((nonStopTokens (tokensOf scenarioS2)).map
    (buildWordFreq [scenarioS0, scenarioS1, scenarioS2])).sum) = 13 from by decide]
  rw [show (nonStopTokens (tokensOf scenarioS2)).length = 11 from by decide]
  rw [show (((adjPairs (tokensOf scenarioS2)).map (fun p =>
    buildPhraseFreq [scenarioS0, scenarioS1, scenarioS2] (phraseKey p.1 p.2))).sum) = 9 from by decide]
  rw [show (tokensOf scenarioS2).length = 13 from by decide]
  rw [show positionScore 3 2 = 2/10 from by norm_num [positionScore]]
  rw [diversityScore]
  rw [show ((nonStopTokens (tokensOf scenarioS2)).dedup).length = 11 from by decide]
  rw [show (tokensOf scenarioS2).length = 13 from by decide]
  rw [lengthScore]
  push_cast
  norm_num
  ring_nf

theorem addWordCounts_apply (ws : List (List Char)) (m : List Char → Nat) (w : List Char) :
    addWordCounts m ws w =
      m w + (ws.filter (fun t => !isStop t && decide (2 < t.length))).count w := by
  induction ws generalizing m with
  | nil => simp [addWordCounts]
  | cons t ts ih =>
    rw [addWordCounts, ih]
    by_cases h : (!isStop t && decide (2 < t.length)) = true
    · rw [if_pos h, List.filter_cons, if_pos h, List.count_cons]
      by_cases hw : w = t
      · subst hw
        simp [bump]
        omega
      · have ht : (t == w) = false := by
          simp [Ne.symm hw]
        simp [bump, hw, ht]
    · rw [if_neg h, List.filter_cons, if_neg h]

theorem buildWordFreq_apply (sents : List (List Char)) (w : List Char) :
    buildWordFreq sents w =
      ((sents.map (fun s => (tokensOf s).filter
        (fun t => !isStop t && decide (2 < t.length)))).flatten).count w := by
  rw [buildWordFreq]
  suffices H : ∀ (ss : List (List Char)) (m : List Char → Nat),
      (ss.foldl (fun m s => addWordCounts m (tokensOf s)) m) w =
        m w + ((ss.map (fun s => (tokensOf s).filter
          (fun t => !isStop t && decide (2 < t.length)))).flatten).count w by
    simpa using H sents (fun _ => 0)
  intro ss
  induction ss with
  | nil => simp
  | cons s ts ih =>
    intro m
    rw [List.foldl_cons, ih, addWordCounts_apply]
    simp [List.count_append]
    omega

theorem addPhraseCounts_apply (ps : List (List Char × List Char)) (m : List Char → Nat)
    (p : List Char) :
    addPhraseCounts m ps p =
      m p + (((ps.filter (fun q => !isStop q.1 && !isStop q.2)).map
        (fun q => phraseKey q.1 q.2)).count p) := by
  induction ps generalizing m with
  | nil => simp [addPhraseCounts]
  | cons q qs ih =>
    rw [addPhraseCounts, ih]
    by_cases h : (!isStop q.1 && !isStop q.2) = true
    · rw [if_pos h, List.filter_cons, if_pos h, List.map_cons, List.count_cons]
      by_cases hp : p = phraseKey q.1 q.2
      · subst hp
        simp [bump]
        omega
      · have ht : (phraseKey q.1 q.2 == p) = false := by
          simp [Ne.symm hp]
        simp [bump, hp, ht]
    · rw [if_neg h, List.filter_cons, if_neg h]

theorem buildPhraseFreq_apply (sents : List (List Char)) (p : List Char) :
    buildPhraseFreq sents p =
      ((sents.map (fun s => ((adjPairs (tokensOf s)).filter
        (fun q => !isStop q.1 && !isStop q.2)).map (fun q => phraseKey q.1 q.2))).flatten).count p := by
  rw [buildPhraseFreq]
  suffices H : ∀ (ss : List (List Char)) (m : List Char → Nat),
      (ss.foldl (fun m s => addPhraseCounts m (adjPairs (tokensOf s))) m) p =
        m p + ((ss.map (fun s => ((adjPairs (tokensOf s)).filter
          (fun q => !isStop q.1 && !isStop q.2)).map (fun q => phraseKey q.1 q.2))).flatten).count p by
    simpa using H sents (fun _ => 0)
  intro ss
  induction ss with
  | nil => simp
  | cons s ts ih =>
    intro m
    rw [List.foldl_cons, ih, addPhraseCounts_apply]
    simp [List.count_append]
    omega

theorem map_snd_sublist_of_indexed (l : List β) :
    ∀ (xs : List (ℕ × β)), (∀ p ∈ xs, l[p.1]? = some p.2) →
      xs.Pairwise (fun a b => a.1 < b.1) → List.Sublist (xs.map Prod.snd) l := by
  induction l with
  | nil =>
    intro xs h hp
    cases xs with
    | nil => simp
    | cons p ps =>
      have := h p (List.mem_cons_self p ps)
      simp at this
  | cons a t ih =>
    intro xs h hp
    cases xs with
    | nil => exact List.nil_sublist _
    | cons p ps =>
      by_cases hi : p.1 = 0
      · have ha : p.2 = a := by
          have := h p (List.mem_cons_self p ps)
          rw [hi] at this
          simpa using this.symm
        have hpos : ∀ q ∈ ps, 0 < q.1 := by
          intro q hq
          have := (List.pairwise_cons.mp hp).1 q hq
          omega
        have hps : ∀ q ∈ ps.map (fun q => (q.1 - 1, q.2)), t[q.1]? = some q.2 := by
          intro q hq
          rw [List.mem_map] at hq
          obtain ⟨r, hr, rfl⟩ := hq
          have h1 := h r (List.mem_cons_of_mem _ hr)
          have h2 := hpos r hr
          rw [show r.1 = (r.1 - 1) + 1 by omega] at h1
          simpa using h1
        have hps2 : (ps.map (fun q => (q.1 - 1, q.2))).Pairwise (fun a b => a.1 < b.1) := by
          rw [List.pairwise_map]
          refine List.Pairwise.imp_of_mem ?_ (List.pairwise_cons.mp hp).2
          intro x y hx hy hxy
          have := hpos x hx
          have := hpos y hy
          simp
          omega
        have htail : List.Sublist (ps.map Prod.snd) t := by
          have := ih (ps.map (fun q => (q.1 - 1, q.2))) hps hps2
          simpa [List.map_map] using this
        rw [List.map_cons, ha]
        exact htail.cons₂ a
      · have hall : ∀ q ∈ p :: ps, 0 < q.1 := by
          intro q hq
          rcases List.mem_cons.mp hq with rfl | hq'
          · omega
          · have := (List.pairwise_cons.mp hp).1 q hq'
            omega
        have hps : ∀ q ∈ (p :: ps).map (fun q => (q.1 - 1, q.2)), t[q.1]? = some q.2 := by
          intro q hq
          rw [List.mem_map] at hq
          obtain ⟨r, hr, rfl⟩ := hq
          have h1 := h r hr
          have h2 := hall r hr
          rw [show r.1 = (r.1 - 1) + 1 by omega] at h1
          simpa using h1
        have hps2 : ((p :: ps).map (fun q => (q.1 - 1, q.2))).Pairwise (fun a b => a.1 < b.1) := by
          rw [List.pairwise_map]
          refine List.Pairwise.imp_of_mem ?_ hp
          intro x y hx hy hxy
          have := hall x hx
          have := hall y hy
          simp
          omega
        have := ih ((p :: ps).map (fun q => (q.1 - 1, q.2))) hps hps2
        rw [List.map_map] at this
        exact List.Sublist.cons a this

theorem validSentences_trim_map (text : List Char) :
    (validSentencesOf text).map trimChars = validSentencesOf text := by
  have h : ∀ s ∈ validSentencesOf text, trimChars s = s := by
    intro s hs
    rw [validSentencesOf] at hs
    have hs2 := List.mem_of_mem_filter hs
    rw [List.mem_map] at hs2
    obtain ⟨u, hu, rfl⟩ := hs2
    exact trimChars_trim u
  calc (validSentencesOf text).map trimChars
      = (validSentencesOf text).map id := List.map_congr_left h
    _ = validSentencesOf text := List.map_id _

theorem idxAsc_total (a b : ScoredSentence) : idxAsc a b ∨ idxAsc b a := by
  simp only [idxAsc, decide_eq_true_eq]
  omega

theorem idxAsc_trans (a b c : ScoredSentence) :
    idxAsc a b → idxAsc b c → idxAsc a c := by
  simp only [idxAsc, decide_eq_true_eq]
  omega

theorem topSentences_sublist (valid : List (List Char)) (n : Int) :
    List.Sublist (topSentences valid n) (valid.map trimChars) := by
  rw [topSentences]
  have hslice : List.Sublist (jsSliceTo (sortBy scoreDesc (sentenceScores valid)) n)
      (sortBy scoreDesc (sentenceScores valid)) := by
    rw [jsSliceTo]
    split
    · exact List.take_sublist _ _
    · exact List.take_sublist _ _
  have hsub : List.Subperm
      (sortBy idxAsc (jsSliceTo (sortBy scoreDesc (sentenceScores valid)) n))
      (sentenceScores valid) :=
    (sortBy_perm idxAsc _).subperm.trans
      (hslice.subperm.trans (sortBy_perm scoreDesc _).subperm)
  have hsorted : (sortBy idxAsc (jsSliceTo (sortBy scoreDesc (sentenceScores valid)) n)).Pairwise
      (fun x y => x.originalIndex ≤ y.originalIndex) := by
    have := sortBy_pairwise idxAsc idxAsc_total idxAsc_trans
      (jsSliceTo (sortBy scoreDesc (sentenceScores valid)) n)
    refine this.imp ?_
    intro x y hxy
    simpa only [idxAsc, decide_eq_true_eq] using hxy
  have hidxL : (sentenceScores valid).map ScoredSentence.originalIndex =
      List.range valid.length := by
    rw [sentenceScores, List.map_map]
    have : (ScoredSentence.originalIndex ∘ fun p : ℕ × List Char =>
        ({ sentence := trimChars p.2, originalIndex := p.1,
           score := finalScore (buildWordFreq valid) (buildPhraseFreq valid)
             valid.length p.1 p.2 } : ScoredSentence)) = Prod.fst := rfl
    rw [this, List.enum_eq_enumFrom, List.enumFrom_map_fst, ← List.range_eq_range']
  have hnodup : ((sortBy idxAsc (jsSliceTo (sortBy scoreDesc (sentenceScores valid)) n)).map
      ScoredSentence.originalIndex).Nodup := by
    obtain ⟨u, hu, hs⟩ := hsub
    have h1 : (u.map ScoredSentence.originalIndex).Nodup := by
      refine (hs.map ScoredSentence.originalIndex).nodup ?_
      rw [hidxL]
      exact List.nodup_range _
    exact (hu.map ScoredSentence.originalIndex).nodup h1
  have hlt : (sortBy idxAsc (jsSliceTo (sortBy scoreDesc (sentenceScores valid)) n)).Pairwise
      (fun x y => x.originalIndex < y.originalIndex) := by
    have hne : (sortBy idxAsc (jsSliceTo (sortBy scoreDesc (sentenceScores valid)) n)).Pairwise
        (fun x y => x.originalIndex ≠ y.originalIndex) := List.pairwise_map.mp hnodup
    refine (hsorted.and hne).imp ?_
    intro x y hxy
    exact lt_of_le_of_ne hxy.1 hxy.2
  have hmem : ∀ x ∈ sortBy idxAsc (jsSliceTo (sortBy scoreDesc (sentenceScores valid)) n),
      (valid.map trimChars)[x.originalIndex]? = some x.sentence := by
    intro x hx
    have hxL : x ∈ sentenceScores valid := hsub.subset hx
    rw [sentenceScores, List.mem_map] at hxL
    obtain ⟨p, hp, rfl⟩ := hxL
    have hget : valid[p.1]? = some p.2 := List.mem_enum_iff_getElem?.mp hp
    rw [List.getElem?_map]
    simp [hget]
  have := map_snd_sublist_of_indexed (valid.map trimChars)
    ((sortBy idxAsc (jsSliceTo (sortBy scoreDesc (sentenceScores valid)) n)).map
      (fun x => (x.originalIndex, x.sentence)))
    (by
      intro p hp
      rw [List.mem_map] at hp
      obtain ⟨x, hx, rfl⟩ := hp
      exact hmem x hx)
    (by
      rw [List.pairwise_map]
      exact hlt)
  simpa [List.map_map] using this

theorem selected_sublist (text : List Char) (n : Int) :
    List.Sublist (selectedSentences text n) (validSentencesOf text) := by
  rw [selectedSentences]
  split
  · exact List.Sublist.refl _
  · have := topSentences_sublist (validSentencesOf text) n
    rwa [validSentences_trim_map] at this

theorem extractiveSummarize_eq_join (text : List Char) (n : Int) :
    extractiveSummarize text n = joinSpace (selectedSentences text n) := by
  rw [extractiveSummarize, selectedSentences]
  split
  · rfl
  · rfl


theorem mem_normalizeText_keep {x : List Char} {c : Char} (hc : c ∈ normalizeText x) :
    isKeep c = true := by
  rw [normalizeText] at hc
  have := mem_of_mem_trimChars hc
  exact List.of_mem_filter this

theorem removeBrackets_of_not_mem {l : List Char} (h : '[' ∉ l) : removeBrackets l = l := by
  rw [removeBrackets]
  induction l with
  | nil => rfl
  | cons c rest ih =>
    have hc : ¬ c = '[' := fun hc => h (hc ▸ List.mem_cons_self c rest)
    simp only [removeBracketsAux, if_neg hc]
    rw [ih (fun hm => h (List.mem_cons_of_mem _ hm))]

theorem removeCarets_of_not_mem {l : List Char} (h : '^' ∉ l) : removeCarets l = l := by
  rw [removeCarets]
  induction l with
  | nil => rfl
  | cons c rest ih =>
    have hc : ¬ c = '^' := fun hc => h (hc ▸ List.mem_cons_self c rest)
    have ih' := ih (fun hm => h (List.mem_cons_of_mem _ hm))
    by_cases he : isEol c
    · simp [removeCaretsAux, he, ih']
    · simp [removeCaretsAux, he, hc, ih']

theorem removeParens_of_not_mem {l : List Char} (h : '(' ∉ l) : removeParens l = l := by
  rw [removeParens]
  induction l with
  | nil => rfl
  | cons c rest ih =>
    have hc : ¬ c = '(' := fun hc => h (hc ▸ List.mem_cons_self c rest)
    simp only [removeParensAux, if_neg hc]
    rw [ih (fun hm => h (List.mem_cons_of_mem _ hm))]

set_option maxHeartbeats 2000000 in
theorem removeUrlsAux_of_not_mem :
    ∀ (n : Nat) (l : List Char), l.length ≤ n → ':' ∉ l → removeUrlsAux false l = l := by
  intro n
  induction n with
  | zero =>
    intro l hl _
    cases l with
    | nil => rfl
    | cons c rest => simp at hl
  | succ n ih =>
    intro l hl h
    rw [removeUrlsAux.eq_def]
    split
    · rfl
    · simp_all
    · exfalso
      apply h
      simp
    · exfalso
      apply h
      simp
    · congr 1
      exact ih _ (by simp at hl; omega) (fun hm => h (List.mem_cons_of_mem _ hm))

theorem removeUrls_of_not_mem {l : List Char} (h : ':' ∉ l) : removeUrls l = l := by
  rw [removeUrls]
  exact removeUrlsAux_of_not_mem l.length l le_rfl h

theorem mem_collapseWsAux :
    ∀ (l : List Char) (b : Bool) (c : Char), c ∈ collapseWsAux b l → c = ' ' ∨ c ∈ l := by
  intro l
  induction l with
  | nil => intro b c hc; simp [collapseWsAux] at hc
  | cons d rest ih =>
    intro b c hc
    by_cases hsp : isSpaceChar d
    · by_cases hb : b
      · subst hb
        simp only [collapseWsAux, if_pos hsp, if_pos rfl] at hc
        rcases ih true c hc with h1 | h1
        · exact Or.inl h1
        · exact Or.inr (List.mem_cons_of_mem _ h1)
      · rw [Bool.not_eq_true] at hb
        subst hb
        simp only [collapseWsAux, if_pos hsp] at hc
        simp only [Bool.false_eq_true, if_false] at hc
        rcases List.mem_cons.mp hc with h1 | h1
        · exact Or.inl h1
        · rcases ih true c h1 with h2 | h2
          · exact Or.inl h2
          · exact Or.inr (List.mem_cons_of_mem _ h2)
    · simp only [collapseWsAux, if_neg hsp] at hc
      rcases List.mem_cons.mp hc with h1 | h1
      · exact Or.inr (h1 ▸ List.mem_cons_self d rest)
      · rcases ih false c h1 with h2 | h2
        · exact Or.inl h2
        · exact Or.inr (List.mem_cons_of_mem _ h2)

theorem collapse_props :
    ∀ (l : List Char) (b : Bool),
      (∀ c ∈ collapseWsAux b l, isSpaceChar c = true → c = ' ') ∧
      (collapseWsAux b l).Chain' (fun a b => ¬(isSpaceChar a = true ∧ isSpaceChar b = true)) ∧
      (b = true → ∀ hd ∈ (collapseWsAux b l).head?, isSpaceChar hd = false) := by
  intro l
  induction l with
  | nil =>
    intro b
    refine ⟨by simp [collapseWsAux], by simp [collapseWsAux], ?_⟩
    intro _ hd hhd
    simp [collapseWsAux] at hhd
  | cons c rest ih =>
    intro b
    by_cases hsp : isSpaceChar c
    · by_cases hb : b
      · subst hb
        simpa only [collapseWsAux, if_pos hsp, if_pos rfl] using ih true
      · rw [Bool.not_eq_true] at hb
        subst hb
        obtain ⟨ih1, ih2, ih3⟩ := ih true
        simp only [collapseWsAux, if_pos hsp, Bool.false_eq_true, if_false]
        refine ⟨?_, ?_, ?_⟩
        · intro d hd _
          rcases List.mem_cons.mp hd with h1 | h1
          · exact h1
          · exact ih1 d h1 (by assumption)
        · rw [List.chain'_cons']
          refine ⟨?_, ih2⟩
          intro y hy
          have := ih3 rfl y hy
          simp [this]
        · intro hfalse
          simp at hfalse
    · obtain ⟨ih1, ih2, ih3⟩ := ih false
      simp only [collapseWsAux, if_neg hsp]
      refine ⟨?_, ?_, ?_⟩
      · intro d hd hd2
        rcases List.mem_cons.mp hd with h1 | h1
        · exact absurd (h1 ▸ hd2) hsp
        · exact ih1 d h1 hd2
      · rw [List.chain'_cons']
        refine ⟨?_, ih2⟩
        intro y hy
        intro hcon
        exact hsp hcon.1
      · intro _ hd hhd
        simp only [List.head?_cons, Option.mem_def, Option.some.injEq] at hhd
        rw [← hhd]
        exact Bool.not_eq_true _ ▸ hsp

theorem collapse_eq_self :
    ∀ (l : List Char),
      (∀ c ∈ l, isSpaceChar c = true → c = ' ') →
      l.Chain' (fun a b => ¬(isSpaceChar a = true ∧ isSpaceChar b = true)) →
      collapseWs l = l := by
  intro l
  rw [collapseWs]
  induction l with
  | nil => intro _ _; rfl
  | cons c rest ih =>
    intro h1 h2
    by_cases hsp : isSpaceChar c
    · have hc : c = ' ' := h1 c (List.mem_cons_self c rest) hsp
      simp only [collapseWsAux, if_pos hsp, Bool.false_eq_true, if_false]
      have haux : collapseWsAux true rest = collapseWsAux false rest := by
        cases rest with
        | nil => rfl
        | cons d tl =>
          have hrel := (List.chain'_cons'.mp h2).1 d (by simp)
          have hd : isSpaceChar d = false := by
            by_cases hdd : isSpaceChar d
            · exact absurd ⟨hsp, hdd⟩ hrel
            · simpa using hdd
          simp only [collapseWsAux, hd, Bool.false_eq_true, if_false]
      rw [haux, ih (fun d hd hsp2 => h1 d (List.mem_cons_of_mem _ hd) hsp2) h2.tail, hc]
    · simp only [collapseWsAux, if_neg hsp]
      rw [ih (fun d hd hsp2 => h1 d (List.mem_cons_of_mem _ hd) hsp2) h2.tail]

theorem trimChars_part (l : List Char) : List.IsInfix (trimChars l) l := by
  have hpre : List.IsPrefix (((l.dropWhile isSpaceChar).reverse.dropWhile isSpaceChar).reverse)
      (l.dropWhile isSpaceChar) := by
    conv_rhs => rw [← List.reverse_reverse (l.dropWhile isSpaceChar)]
    exact List.reverse_prefix.mpr (List.dropWhile_suffix _)
  have hsuf : List.IsSuffix (l.dropWhile isSpaceChar) l := List.dropWhile_suffix _
  exact hpre.isInfix.trans hsuf.isInfix

theorem normalizeText_of_keep {y : List Char} (hk : ∀ c ∈ y, isKeep c = true) :
    normalizeText y = trimChars (collapseWs y) := by
  have hbr : '[' ∉ y := fun hm => absurd (hk _ hm) (by decide)
  have hcr : '^' ∉ y := fun hm => absurd (hk _ hm) (by decide)
  have hco : ':' ∉ y := fun hm => absurd (hk _ hm) (by decide)
  have hpa : '(' ∉ y := fun hm => absurd (hk _ hm) (by decide)
  rw [normalizeText, removeBrackets_of_not_mem hbr, removeCarets_of_not_mem hcr,
    removeUrls_of_not_mem hco, removeParens_of_not_mem hpa]
  have hstrip : stripSpecials (collapseWs y) = collapseWs y := by
    rw [stripSpecials, List.filter_eq_self]
    intro c hc
    rcases mem_collapseWsAux y false c hc with h1 | h1
    · rw [h1]; decide
    · exact hk c h1
  rw [hstrip]

theorem char_toNat_ofNat_valid {m : Nat} (h : m.isValidChar) : (Char.ofNat m).toNat = m := by
  rw [Char.ofNat, dif_pos h]
  simp [Char.ofNatAux, Char.toNat, UInt32.toNat]

theorem isWordChar_toLower {c : Char} (h : isWordChar c = true) :
    isWordChar c.toLower = true := by
  rw [Char.toLower]
  split
  · rename_i hn
    have hv : (Char.toNat c + 32).isValidChar := by
      left
      omega
    have ht : (Char.ofNat (Char.toNat c + 32)).toNat = Char.toNat c + 32 :=
      char_toNat_ofNat_valid hv
    have hlow : (Char.ofNat (Char.toNat c + 32)).isLower = true := by
      rw [Char.isLower]
      have h1 : (97 : UInt32) ≤ (Char.ofNat (Char.toNat c + 32)).val := by
        rw [UInt32.le_def, BitVec.le_def]
        have hv2 : (Char.ofNat (Char.toNat c + 32)).val.toNat = Char.toNat c + 32 := ht
        rw [show ((97 : UInt32)).toBitVec.toNat = 97 from rfl]
        rw [show (Char.ofNat (Char.toNat c + 32)).val.toBitVec.toNat =
          (Char.ofNat (Char.toNat c + 32)).val.toNat from rfl]
        omega
      have h2 : (Char.ofNat (Char.toNat c + 32)).val ≤ (122 : UInt32) := by
        rw [UInt32.le_def, BitVec.le_def]
        have hv2 : (Char.ofNat (Char.toNat c + 32)).val.toNat = Char.toNat c + 32 := ht
        rw [show ((122 : UInt32)).toBitVec.toNat = 122 from rfl]
        rw [show (Char.ofNat (Char.toNat c + 32)).val.toBitVec.toNat =
          (Char.ofNat (Char.toNat c + 32)).val.toNat from rfl]
        omega
      simp [h1, h2, decide_eq_true_eq]
    rw [isWordChar, Char.isAlphanum, Char.isAlpha]
    simp [hlow]
  · exact h

theorem isTerm_not_space {c : Char} (h : isTerm c = true) : isSpaceChar c = false := by
  rw [isTerm] at h
  simp only [Bool.or_eq_true, beq_iff_eq] at h
  rcases h with (h | h) | h <;> subst h <;> decide

theorem segTermsOnly_of_all {s : List Char}
    (h : ∀ c ∈ s, (isTerm c || c == Char.ofNat 34 || c == Char.ofNat 39) = true) :
    segTermsOnly s = true := by
  rw [segTermsOnly, List.all_eq_true]
  intro c hc
  exact h c ((List.dropWhile_suffix _).sublist.subset hc)

theorem segTermsOnly_of_noTerm {s : List Char}
    (h : ∀ c ∈ s, isTerm c = false) : segTermsOnly s = true := by
  rw [segTermsOnly]
  have hnil : s.dropWhile (fun c => !isTerm c) = [] := by
    rw [List.dropWhile_eq_nil_iff]
    intro c hc
    simp [h c hc]
  rw [hnil]
  rfl

theorem segTermsOnly_append {x : List Char} {c : Char}
    (hx : segTermsOnly x = true)
    (hc : (isTerm c || c == Char.ofNat 34 || c == Char.ofNat 39) = true) :
    segTermsOnly (x ++ [c]) = true := by
  rw [segTermsOnly] at hx ⊢
  rw [List.dropWhile_append]
  split
  · cases hcc : (!isTerm c) with
    | true =>
      simp [List.dropWhile, hcc]
    | false =>
      simp only [List.dropWhile, hcc]
      simp [hc]
  · simp only [List.all_append, Bool.and_eq_true]
    exact ⟨hx, by simp [hc]⟩

theorem splitSentAux_props (Q : Char → Bool) :
    ∀ (l cur : List Char) (inTerms started : Bool),
      (∀ c ∈ l, Q c = true) →
      (∀ c ∈ cur, Q c = true) →
      (inTerms = true → segTermsOnly cur.reverse = true) →
      (inTerms = false → ∀ c ∈ cur, isTerm c = false) →
      ∀ s ∈ splitSentAux cur inTerms started l,
        (∀ c ∈ s, Q c = true) ∧ segTermsOnly s = true := by
  intro l
  induction l with
  | nil =>
    intro cur inTerms started hQ hcur hterms hbody s hs
    rw [splitSentAux] at hs
    by_cases hst : started
    · rw [if_pos hst, List.mem_singleton] at hs
      subst hs
      refine ⟨fun c hc => hcur c (List.mem_reverse.mp hc), ?_⟩
      cases inTerms with
      | true => exact hterms rfl
      | false =>
        exact segTermsOnly_of_noTerm
          (fun c hc => hbody rfl c (List.mem_reverse.mp hc))
    · rw [if_neg hst] at hs
      simp at hs
  | cons c rest ih =>
    intro cur inTerms started hQ hcur hterms hbody s hs
    have hQr : ∀ d ∈ rest, Q d = true := fun d hd => hQ d (List.mem_cons_of_mem _ hd)
    have hQc : Q c = true := hQ c (List.mem_cons_self c rest)
    rw [splitSentAux] at hs
    by_cases hc : isTerm c
    · rw [if_pos hc] at hs
      have hcurOk : segTermsOnly (c :: cur).reverse = true := by
        rw [List.reverse_cons]
        cases inTerms with
        | true => exact segTermsOnly_append (hterms rfl) (by simp [hc])
        | false =>
          exact segTermsOnly_append
            (segTermsOnly_of_noTerm (fun d hd => hbody rfl d (List.mem_reverse.mp hd)))
            (by simp [hc])
      by_cases hst : started
      · rw [if_pos hst] at hs
        exact ih (c :: cur) true true hQr
          (by
            intro d hd
            rcases List.mem_cons.mp hd with rfl | hd
            · exact hQc
            · exact hcur d hd)
          (fun _ => hcurOk) (by intro hfalse; cases hfalse) s hs
      · rw [if_neg hst] at hs
        exact ih [] false false hQr (by simp) (by intro hfalse; cases hfalse)
          (by intro _ d hd; simp at hd) s hs
    · rw [if_neg hc] at hs
      by_cases hin : inTerms
      · rw [if_pos hin] at hs
        by_cases hq : c = Char.ofNat 34 || c = Char.ofNat 39
        · rw [if_pos hq] at hs
          rcases List.mem_cons.mp hs with rfl | hs2
          · refine ⟨?_, ?_⟩
            · intro d hd
              rw [List.mem_reverse] at hd
              rcases List.mem_cons.mp hd with rfl | hd
              · exact hQc
              · exact hcur d hd
            · rw [List.reverse_cons]
              refine segTermsOnly_append (hterms hin) ?_
              simp only [Bool.or_eq_true, decide_eq_true_eq] at hq
              rcases hq with hq | hq
              · subst hq; simp
              · subst hq; simp
          · exact ih [] false false hQr (by simp) (by intro hfalse; cases hfalse)
              (by intro _ d hd; simp at hd) s hs2
        · rw [if_neg hq] at hs
          rcases List.mem_cons.mp hs with rfl | hs2
          · exact ⟨fun d hd => hcur d (List.mem_reverse.mp hd), hterms hin⟩
          · exact ih [c] false true hQr
              (by
                intro d hd
                rcases List.mem_cons.mp hd with rfl | hd
                · exact hQc
                · simp at hd)
              (by intro hfalse; cases hfalse)
              (by
                intro _ d hd
                rcases List.mem_cons.mp hd with rfl | hd
                · simpa using hc
                · simp at hd) s hs2
      · rw [if_neg hin] at hs
        exact ih (c :: cur) false true hQr
          (by
            intro d hd
            rcases List.mem_cons.mp hd with rfl | hd
            · exact hQc
            · exact hcur d hd)
          (by intro hfalse; cases hfalse)
          (by
            intro _ d hd
            rcases List.mem_cons.mp hd with rfl | hd
            · simpa using hc
            · exact hbody (by simpa using hin) d hd) s hs

theorem splitSentences_props {Q : Char → Bool} {l : List Char}
    (hl : ∀ c ∈ l, Q c = true) :
    ∀ s ∈ splitSentences l, (∀ c ∈ s, Q c = true) ∧ segTermsOnly s = true := by
  intro s hs
  exact splitSentAux_props Q l [] false false hl (by simp)
    (by intro hfalse; cases hfalse) (by intro _ d hd; simp at hd) s hs

theorem segTermsOnly_tail {c : Char} {rest : List Char}
    (h : segTermsOnly (c :: rest) = true) : segTermsOnly rest = true := by
  by_cases hc : isTerm c
  · rw [segTermsOnly, List.dropWhile_cons, if_neg (by simp [hc])] at h
    rw [List.all_eq_true] at h
    exact segTermsOnly_of_all (fun d hd => h d (List.mem_cons_of_mem _ hd))
  · rw [segTermsOnly, List.dropWhile_cons, if_pos (by simp [hc])] at h
    exact h

theorem segTermsOnly_suffix {s l : List Char} (hsuf : List.IsSuffix s l)
    (h : segTermsOnly l = true) : segTermsOnly s = true := by
  obtain ⟨t, rfl⟩ := hsuf
  induction t with
  | nil => exact h
  | cons a t ih => exact ih (segTermsOnly_tail h)

theorem segTermsOnly_take {l : List Char} (h : segTermsOnly l = true) :
    ∀ n, segTermsOnly (l.take n) = true := by
  induction l with
  | nil => intro n; simp [List.take_nil]; exact h
  | cons c rest ih =>
    intro n
    cases n with
    | zero => simp [segTermsOnly]
    | succ m =>
      rw [List.take_succ_cons]
      by_cases hc : isTerm c
      · rw [segTermsOnly, List.dropWhile_cons, if_neg (by simp [hc]), List.all_eq_true] at h
        refine segTermsOnly_of_all ?_
        intro d hd
        rcases List.mem_cons.mp hd with rfl | hd
        · exact h d (List.mem_cons_self _ _)
        · exact h d (List.mem_cons_of_mem _ ((List.take_sublist m rest).subset hd))
      · rw [segTermsOnly, List.dropWhile_cons, if_pos (by simp [hc])] at h
        rw [segTermsOnly, List.dropWhile_cons, if_pos (by simp [hc])]
        exact ih h m

theorem segTermsOnly_part {s l : List Char} (hinf : List.IsInfix s l)
    (h : segTermsOnly l = true) : segTermsOnly s = true := by
  rw [List.infix_iff_prefix_suffix] at hinf
  obtain ⟨t, hpre, hsuf⟩ := hinf
  have ht : segTermsOnly t = true := segTermsOnly_suffix hsuf h
  rw [List.prefix_iff_eq_take.mp hpre]
  exact segTermsOnly_take ht _

theorem wsRunsAux_of_no_space {t : List Char} (h : ∀ c ∈ t, isSpaceChar c = false) :
    ∀ b, wsRunsAux b t = 0 := by
  induction t with
  | nil => intro b; rfl
  | cons c rest ih =>
    intro b
    rw [wsRunsAux]
    rw [if_neg (by simp [h c (List.mem_cons_self c rest)])]
    exact ih (fun d hd => h d (List.mem_cons_of_mem _ hd)) false

theorem wsRunsAux_true_all_space {b : List Char} (h : ∀ c ∈ b, isSpaceChar c = true) (t : List Char) :
    wsRunsAux true (b ++ t) = wsRunsAux true t := by
  induction b with
  | nil => rfl
  | cons c rest ih =>
    rw [List.cons_append, wsRunsAux, if_pos (by simp [h c (List.mem_cons_self c rest)])]
    rw [if_pos rfl]
    simp only [Nat.zero_add]
    exact ih (fun d hd => h d (List.mem_cons_of_mem _ hd))

theorem wsRuns_le_one {b t : List Char} (hb : ∀ c ∈ b, isSpaceChar c = true)
    (ht : ∀ c ∈ t, isSpaceChar c = false) : wsRuns (b ++ t) ≤ 1 := by
  rw [wsRuns]
  cases b with
  | nil =>
    rw [List.nil_append, wsRunsAux_of_no_space ht]
    omega
  | cons c rest =>
    rw [List.cons_append, wsRunsAux, if_pos (by simp [hb c (List.mem_cons_self c rest)])]
    rw [if_neg (by simp)]
    have : wsRunsAux true (rest ++ t) = wsRunsAux true t :=
      wsRunsAux_true_all_space (fun d hd => hb d (List.mem_cons_of_mem _ hd)) t
    rw [this, wsRunsAux_of_no_space ht]

theorem exists_wordChar_core {s : List Char}
    (hk : ∀ c ∈ s, isKeep c = true) (hseg : segTermsOnly s = true)
    (hwc : 4 ≤ jsSplitWsLen s) : ∃ c ∈ s, isWordChar c = true := by
  by_contra hno
  push_neg at hno
  have hno' : ∀ c ∈ s, isWordChar c = false := by
    intro c hc
    have := hno c hc
    simpa using this
  have hb : ∀ c ∈ s.takeWhile (fun c => !isTerm c), isSpaceChar c = true := by
    intro c hc
    have hmem : c ∈ s := ((List.takeWhile_prefix _).sublist).subset hc
    have hkc := hk c hmem
    have hnw := hno' c hmem
    have hnt := List.mem_takeWhile_imp hc
    rw [isKeep, hnw] at hkc
    simp only [Bool.not_eq_true'] at hnt
    rw [hnt] at hkc
    simpa using hkc
  have ht : ∀ c ∈ s.dropWhile (fun c => !isTerm c), isSpaceChar c = false := by
    intro c hc
    have hmem : c ∈ s := ((List.dropWhile_suffix _).sublist).subset hc
    rw [segTermsOnly, List.all_eq_true] at hseg
    have htq := hseg c hc
    simp only [Bool.or_eq_true, beq_iff_eq] at htq
    rcases htq with (hterm | hq) | hq
    · exact isTerm_not_space hterm
    · subst hq
      have := hk _ hmem
      exact absurd this (by decide)
    · subst hq
      have := hk _ hmem
      exact absurd this (by decide)
  have hle : wsRuns s ≤ 1 := by
    have := wsRuns_le_one hb ht
    rwa [List.takeWhile_append_dropWhile] at this
  rw [jsSplitWsLen] at hwc
  by_cases hemp : s.isEmpty
  · rw [if_pos hemp] at hwc
    omega
  · rw [if_neg hemp] at hwc
    omega

theorem wordsAux_true_ne_nil : ∀ (l cur : List Char), wordsAux cur true l ≠ [] := by
  intro l
  induction l with
  | nil => intro cur; simp [wordsAux]
  | cons c rest ih =>
    intro cur
    rw [wordsAux]
    by_cases hc : isWordChar c
    · rw [if_pos hc]
      exact ih (c :: cur)
    · rw [if_neg hc, if_pos rfl]
      simp

theorem wordsOf_ne_nil {l : List Char} (h : ∃ c ∈ l, isWordChar c = true) :
    wordsOf l ≠ [] := by
  rw [wordsOf]
  obtain ⟨c, hc, hw⟩ := h
  induction l with
  | nil => simp at hc
  | cons d rest ih =>
    rw [wordsAux]
    by_cases hd : isWordChar d
    · rw [if_pos hd]
      exact wordsAux_true_ne_nil rest [d]
    · rw [if_neg hd, if_neg (by simp)]
      rcases List.mem_cons.mp hc with rfl | hc2
      · exact absurd hw (by simp [hd])
      · exact ih hc2

theorem tokensOf_ne_nil {s : List Char} (h : ∃ c ∈ s, isWordChar c = true) :
    tokensOf s ≠ [] := by
  obtain ⟨c, hc, hw⟩ := h
  rw [tokensOf]
  apply wordsOf_ne_nil
  exact ⟨c.toLower, List.mem_map_of_mem _ hc, isWordChar_toLower hw⟩

theorem validSentences_tokens_ne_nil (text : List Char) :
    ∀ s ∈ validSentencesOf text, tokensOf s ≠ [] := by
  intro s hs
  rw [validSentencesOf, List.mem_filter] at hs
  obtain ⟨hmem, hsurv⟩ := hs
  rw [List.mem_map] at hmem
  obtain ⟨seg, hseg, rfl⟩ := hmem
  have hprops := splitSentences_props (fun c hc => mem_normalizeText_keep hc) seg hseg
  obtain ⟨hkeep, hsego⟩ := hprops
  have hk' : ∀ c ∈ trimChars seg, isKeep c = true :=
    fun c hc => hkeep c (mem_of_mem_trimChars hc)
  have hsg' : segTermsOnly (trimChars seg) = true :=
    segTermsOnly_part (trimChars_part seg) hsego
  have hwc : 4 ≤ jsSplitWsLen (trimChars seg) := by
    rw [survives] at hsurv
    simp only [Bool.and_eq_true, Bool.not_eq_true', Bool.or_eq_false_iff,
      decide_eq_false_iff_not] at hsurv
    obtain ⟨⟨⟨⟨hwcount, _⟩, _⟩, _⟩, _⟩ := hsurv
    omega
  exact tokensOf_ne_nil (exists_wordChar_core hk' hsg' hwc)

theorem positionScore_cast (total i : Nat) (htotal : 0 < total) :
    ((positionScore total i : ℚ) : ℝ) =
      if (i : ℝ) / (total : ℝ) < 0.2 then 1 - (i : ℝ) / ((total : ℝ) * 0.2)
      else if (i : ℝ) / (total : ℝ) > 0.8 then
        ((i : ℝ) - (total : ℝ) * 0.8) / ((total : ℝ) * 0.2)
      else 0.2 := by
  have htotR : (0:ℝ) < (total:ℝ) := by exact_mod_cast htotal
  rw [positionScore]
  by_cases h1 : (i:ℚ) < (total:ℚ) * (2/10)
  · rw [if_pos h1]
    rify at h1
    rw [if_pos (by rw [div_lt_iff₀ htotR]; nlinarith)]
    push_cast
    norm_num
  · rw [if_neg h1]
    rify at h1
    have hcond1 : ¬ ((i : ℝ) / (total : ℝ) < 0.2) := by
      rw [div_lt_iff₀ htotR]
      intro hcon
      apply h1
      nlinarith
    by_cases h2 : (i:ℚ) > (total:ℚ) * (8/10)
    · rw [if_pos h2]
      rify at h2
      rw [if_neg hcond1, if_pos (by rw [gt_iff_lt, lt_div_iff₀ htotR]; nlinarith)]
      push_cast
      norm_num
    · rw [if_neg h2]
      rify at h2
      have hcond2 : ¬ ((i : ℝ) / (total : ℝ) > 0.8) := by
        rw [gt_iff_lt, lt_div_iff₀ htotR]
        intro hcon
        apply h2
        nlinarith
      rw [if_neg hcond1, if_neg hcond2]
      norm_num

/-! ### Claims -/

/-- C1: the spec requires `sentenceCount ≤ 0` to fall back to the
default 5 or clamp to 1; the code has no such guard.  At the failing
input below (one surviving sentence, `sentenceCount = 0`) the code
takes the scoring branch and `slice(0, 0)` yields the empty summary,
while both documented behaviors yield the sentence itself. -/
theorem c1_nonpositive_count_bug :
    extractiveSummarize ("This is a perfectly fine sentence for a test.".toList) 0 = [] ∧
    extractiveSummarize ("This is a perfectly fine sentence for a test.".toList) 5 =
      "This is a perfectly fine sentence for a test.".toList ∧
    extractiveSummarize ("This is a perfectly fine sentence for a test.".toList) 1 =
      "This is a perfectly fine sentence for a test.".toList ∧
    ("This is a perfectly fine sentence for a test.".toList : List Char) ≠ [] := by
  have hv : validSentencesOf ("This is a perfectly fine sentence for a test.".toList) =
      ["This is a perfectly fine sentence for a test.".toList] := by decide
  refine ⟨?_, ?_, ?_, by decide⟩
  · rw [extractiveSummarize, hv]
    norm_num [topSentences, jsSliceTo_zero, sortBy, joinSpace]
    decide
  · rw [extractiveSummarize, hv]
    norm_num [joinSpace, List.intercalate]
  · rw [extractiveSummarize, hv]
    norm_num [joinSpace, List.intercalate]

/-- C3: the summary is the space-join of a list of sentences that is a
subsequence of the surviving sentences — so output sentences appear in
non-decreasing original-index order, never reordered relative to the
source, whatever order score-based selection visited them in. -/
theorem c3_order_preservation (text : List Char) (n : Int) :
    List.Sublist (selectedSentences text n) (validSentencesOf text) ∧
    extractiveSummarize text n = joinSpace (selectedSentences text n) :=
  ⟨selected_sublist text n, extractiveSummarize_eq_join text n⟩

/-- C9: a sentence of the returned summary never contains a brace
(`\x7b`/`\x7d` are `{`/`}`) and is never shorter than 20 characters,
because every selected sentence survived the filter of lines 29-43. -/
theorem c9_filter_correctness (text : List Char) (n : Int) (s : List Char)
    (hs : s ∈ selectedSentences text n) :
    ¬ '\x7b' ∈ s ∧ ¬ '\x7d' ∈ s ∧ 20 ≤ s.length := by
  have hmem : s ∈ validSentencesOf text := (selected_sublist text n).subset hs
  have hsurv : survives s = true := by
    rw [validSentencesOf] at hmem
    exact (List.mem_filter.mp hmem).2
  rw [survives] at hsurv
  simp only [Bool.and_eq_true, Bool.not_eq_true', Bool.or_eq_false_iff,
    decide_eq_false_iff_not, List.contains, List.elem_eq_mem] at hsurv
  obtain ⟨⟨⟨⟨_, hlen⟩, ⟨⟨_, hb1⟩, hb2⟩⟩, _⟩, _⟩ := hsurv
  exact ⟨hb1, hb2, by omega⟩

set_option maxRecDepth 40000 in
/-- Witness for C9 at a concrete input: a selected sentence of the
three-sentence demo text contains no braces and has at least 20
characters. -/
theorem c9_filter_correctness_witness :
    ("Alpha beta gamma delta epsilon zeta.".toList ∈
      selectedSentences ("Alpha beta gamma delta epsilon zeta. Second sentence with several interesting words here. Third sentence about other meaningful content today.".toList) 5) ∧
    (¬ '\x7b' ∈ ("Alpha beta gamma delta epsilon zeta.".toList) ∧
     ¬ '\x7d' ∈ ("Alpha beta gamma delta epsilon zeta.".toList) ∧
     20 ≤ ("Alpha beta gamma delta epsilon zeta.".toList).length) := by
  have hmem : "Alpha beta gamma delta epsilon zeta.".toList ∈
      selectedSentences ("Alpha beta gamma delta epsilon zeta. Second sentence with several interesting words here. Third sentence about other meaningful content today.".toList) 5 := by
    rw [selectedSentences, if_pos (by decide)]
    decide
  exact ⟨hmem, c9_filter_correctness _ 5 _ hmem⟩

/-- C4: when the surviving sentences number at most the requested
count, the summary is all of them joined by single spaces, skipping the
frequency model and scoring (the short-circuit branch of line 45 never
evaluates them). -/
theorem c4_short_circuit (text : List Char) (n : Int)
    (h : ((validSentencesOf text).length : Int) ≤ n) :
    extractiveSummarize text n = joinSpace (validSentencesOf text) := by
  rw [extractiveSummarize, if_pos h]

/-- Witness for C4: a text with exactly 3 surviving sentences and
`sentenceCount = 5` yields the 3 sentences space-joined in original
order. -/
theorem c4_short_circuit_witness :
    (validSentencesOf ("Alpha beta gamma delta epsilon zeta. Second sentence with several interesting words here. Third sentence about other meaningful content today.".toList)).length = 3 ∧
    ((validSentencesOf ("Alpha beta gamma delta epsilon zeta. Second sentence with several interesting words here. Third sentence about other meaningful content today.".toList)).length : Int) ≤ 5 ∧
    extractiveSummarize ("Alpha beta gamma delta epsilon zeta. Second sentence with several interesting words here. Third sentence about other meaningful content today.".toList) 5 =
      "Alpha beta gamma delta epsilon zeta. Second sentence with several interesting words here. Third sentence about other meaningful content today.".toList := by
  refine ⟨by decide, by decide, ?_⟩
  rw [c4_short_circuit _ _ (by decide)]
  decide

/-- C5: with a positive requested count (the domain the interface
specifies), the number of sentences in the summary is the minimum of
the request and the surviving-sentence count. -/
theorem c5_bounded_output (text : List Char) (n : Int) (h : 1 ≤ n) :
    ((selectedSentences text n).length : Int) =
      min n ((validSentencesOf text).length : Int) := by
  rw [selectedSentences]
  by_cases hc : ((validSentencesOf text).length : Int) ≤ n
  · rw [if_pos hc, min_eq_right hc]
  · rw [if_neg hc]
    push_neg at hc
    rw [topSentences, List.length_map, sortBy_length, jsSliceTo,
      if_pos (by omega : (0 : Int) ≤ n), List.length_take, sortBy_length,
      sentenceScores_length]
    omega

/-- Witness for C5 at a concrete input: requesting 2 of 3 surviving
sentences keeps exactly 2. -/
theorem c5_bounded_output_witness :
    (1 : Int) ≤ 2 ∧
    ((selectedSentences ("Alpha beta gamma delta epsilon zeta. Second sentence with several interesting words here. Third sentence about other meaningful content today.".toList) 2).length : Int) =
      min 2 ((validSentencesOf ("Alpha beta gamma delta epsilon zeta. Second sentence with several interesting words here. Third sentence about other meaningful content today.".toList)).length : Int) :=
  ⟨by norm_num, c5_bounded_output _ 2 (by norm_num)⟩

set_option maxRecDepth 40000 in
/-- C2 counterexample: the first sentence `"The cat sat on the mat."`
of the scenario is 23 characters and 6 words, so — contrary to the
claim — it is NOT rejected by the filter: it survives, and all three
sentences reach the scoring phase. -/
theorem c2_first_sentence_survives :
    survives ("The cat sat on the mat.".toList) = true ∧
    validSentencesOf scenarioInput = [scenarioS0, scenarioS1, scenarioS2] :=
  ⟨by decide, scenarioValid⟩

set_option maxRecDepth 40000 in
/-- C2 amended: on the scenario input with `sentenceCount = 2` the
citation `[1]` and the URL are stripped by normalization, the first
sentence survives filtering but loses the score-based selection, and
the summary is exactly the two remaining long sentences joined by a
single space, in original order. -/
theorem c2_end_to_end_amended :
    normalizeText scenarioInput =
      "The cat sat on the mat. A much longer sentence about cats and their habits in urban environments follows here. Another long descriptive sentence about feline behavior and city life continues the narrative.".toList ∧
    extractiveSummarize scenarioInput 2 =
      "A much longer sentence about cats and their habits in urban environments follows here. Another long descriptive sentence about feline behavior and city life continues the narrative.".toList := by
  refine ⟨by decide, ?_⟩
  rw [extractiveSummarize, scenarioValid, if_neg (by decide)]
  rw [topSentences, sentenceScores]
  rw [show List.enum [scenarioS0, scenarioS1, scenarioS2] =
    [(0, scenarioS0), (1, scenarioS1), (2, scenarioS2)] from rfl]
  rw [show List.length [scenarioS0, scenarioS1, scenarioS2] = 3 from rfl]
  simp only [List.map_cons, List.map_nil]
  rw [show trimChars scenarioS0 = scenarioS0 from by decide]
  rw [show trimChars scenarioS1 = scenarioS1 from by decide]
  rw [show trimChars scenarioS2 = scenarioS2 from by decide]
  have h01 : finalScore (buildWordFreq [scenarioS0, scenarioS1, scenarioS2])
      (buildPhraseFreq [scenarioS0, scenarioS1, scenarioS2]) 3 0 scenarioS0 <
      finalScore (buildWordFreq [scenarioS0, scenarioS1, scenarioS2])
      (buildPhraseFreq [scenarioS0, scenarioS1, scenarioS2]) 3 1 scenarioS1 := by
    rw [scenarioScore0, scenarioScore1]
    have hexp : Real.exp (-(7/10)) < Real.exp (-(3/10)) := Real.exp_lt_exp.mpr (by norm_num)
    linarith
  have h02 : finalScore (buildWordFreq [scenarioS0, scenarioS1, scenarioS2])
      (buildPhraseFreq [scenarioS0, scenarioS1, scenarioS2]) 3 0 scenarioS0 <
      finalScore (buildWordFreq [scenarioS0, scenarioS1, scenarioS2])
      (buildPhraseFreq [scenarioS0, scenarioS1, scenarioS2]) 3 2 scenarioS2 := by
    rw [scenarioScore0, scenarioScore2]
    have hexp : Real.exp (-(7/10)) < Real.exp (-(7/20)) := Real.exp_lt_exp.mpr (by norm_num)
    linarith
  rw [top2_of_three _ _ _ h01 h02 (by norm_num) (by norm_num)]
  decide

/-- C7: the frequency model of one call counts exactly the qualifying
tokens and 2-grams of the sentences it is built from (in the pipeline,
`validSentences`, hence discarded sentences contribute nothing), and a
sentence whose tokens are all stop words adds no `wordFreq` entries. -/
theorem c7_frequency_model (sents : List (List Char)) (w p s : List Char)
    (hs : ∀ t ∈ tokensOf s, isStop t = true) :
    buildWordFreq sents w =
      ((sents.map (fun u => (tokensOf u).filter
        (fun t => !isStop t && decide (2 < t.length)))).flatten).count w ∧
    buildPhraseFreq sents p =
      ((sents.map (fun u => ((adjPairs (tokensOf u)).filter
        (fun q => !isStop q.1 && !isStop q.2)).map (fun q => phraseKey q.1 q.2))).flatten).count p ∧
    buildWordFreq (sents ++ [s]) w = buildWordFreq sents w := by
  refine ⟨buildWordFreq_apply sents w, buildPhraseFreq_apply sents p, ?_⟩
  rw [buildWordFreq_apply, buildWordFreq_apply]
  have hnil : (tokensOf s).filter (fun t => !isStop t && decide (2 < t.length)) = [] := by
    rw [List.filter_eq_nil_iff]
    intro t ht
    simp [hs t ht]
  simp [List.count_append, hnil]

/-- Witness for C7 at concrete inputs; the extra sentence
`"So so the."` consists solely of stop words and punctuation. -/
theorem c7_frequency_model_witness :
    (∀ t ∈ tokensOf ("So so the.".toList), isStop t = true) ∧
    (buildWordFreq ["The cat sat on the mat.".toList] ("cat".toList) =
      (([ "The cat sat on the mat.".toList ].map (fun u => (tokensOf u).filter
        (fun t => !isStop t && decide (2 < t.length)))).flatten).count ("cat".toList) ∧
    buildPhraseFreq ["The cat sat on the mat.".toList] ("cat sat".toList) =
      (([ "The cat sat on the mat.".toList ].map (fun u => ((adjPairs (tokensOf u)).filter
        (fun q => !isStop q.1 && !isStop q.2)).map
          (fun q => phraseKey q.1 q.2))).flatten).count ("cat sat".toList) ∧
    buildWordFreq (["The cat sat on the mat.".toList] ++ ["So so the.".toList]) ("cat".toList) =
      buildWordFreq ["The cat sat on the mat.".toList] ("cat".toList)) :=
  ⟨by decide, c7_frequency_model _ _ _ _ (by decide)⟩


/-- C6: the composite score is exactly the weighted sum
0.30·frequency + 0.20·phrase + 0.20·position + 0.15·length +
0.15·diversity, with the sub-scores as the claim states them, for any
sentence with at least one token at an index among a positive total
(which rules out the guarded-away empty denominators); no further
normalization is applied. -/
theorem c6_composite_score (wf pf : List Char → Nat) (total i : Nat) (s : List Char)
    (htotal : 0 < total) (htok : tokensOf s ≠ []) :
    finalScore wf pf total i s =
      0.30 * (if nonStopTokens (tokensOf s) = [] then 0
          else (((nonStopTokens (tokensOf s)).map wf).sum : ℝ) /
            ((nonStopTokens (tokensOf s)).length : ℝ)) +
      0.20 * ((((adjPairs (tokensOf s)).map (fun p => pf (phraseKey p.1 p.2))).sum : ℝ) /
          ((tokensOf s).length : ℝ)) +
      0.20 * (if (i : ℝ) / (total : ℝ) < 0.2 then 1 - (i : ℝ) / ((total : ℝ) * 0.2)
          else if (i : ℝ) / (total : ℝ) > 0.8 then
            ((i : ℝ) - (total : ℝ) * 0.8) / ((total : ℝ) * 0.2)
          else 0.2) +
      0.15 * Real.exp (-(|((tokensOf s).length : ℝ) - 20| / 20)) +
      0.15 * (((nonStopTokens (tokensOf s)).dedup.length : ℝ) / ((tokensOf s).length : ℝ)) := by
  have hlen : (tokensOf s).length ≠ 0 := by
    simpa [List.length_eq_zero] using htok
  have hfreq : ((frequencyScore wf (tokensOf s) : ℚ) : ℝ) =
      (if nonStopTokens (tokensOf s) = [] then 0
        else (((nonStopTokens (tokensOf s)).map wf).sum : ℝ) /
          ((nonStopTokens (tokensOf s)).length : ℝ)) := by
    rw [frequencyScore_eq_nat]
    by_cases hns : nonStopTokens (tokensOf s) = []
    · rw [if_pos hns, hns]
      simp
    · have hnsl : (nonStopTokens (tokensOf s)).length ≠ 0 := by
        simpa [List.length_eq_zero] using hns
      rw [if_neg hns, if_neg hnsl]
      push_cast [List.map_map]
      simp only [Function.comp_def, Rat.cast_natCast]
  have hphrase : ((phraseScore pf (tokensOf s) : ℚ) : ℝ) =
      (((adjPairs (tokensOf s)).map (fun p => pf (phraseKey p.1 p.2))).sum : ℝ) /
        ((tokensOf s).length : ℝ) := by
    rw [phraseScore_eq_nat, if_neg hlen]
    push_cast [List.map_map]
    simp only [Function.comp_def, Rat.cast_natCast]
  have hdiv : ((diversityScore (tokensOf s) : ℚ) : ℝ) =
      ((nonStopTokens (tokensOf s)).dedup.length : ℝ) / ((tokensOf s).length : ℝ) := by
    rw [diversityScore]
    push_cast
    ring
  rw [finalScore, hfreq, hphrase, hdiv, positionScore_cast total i htotal, lengthScore]
  ring

/-- Witness for C6 at concrete inputs. -/
theorem c6_composite_score_witness :
    0 < 3 ∧ tokensOf ("The cat sat on the mat.".toList) ≠ [] ∧
    finalScore (fun _ => 1) (fun _ => 2) 3 1 ("The cat sat on the mat.".toList) =
      0.30 * (if nonStopTokens (tokensOf ("The cat sat on the mat.".toList)) = [] then 0
          else (((nonStopTokens (tokensOf ("The cat sat on the mat.".toList))).map
              (fun _ => (1 : Nat))).sum : ℝ) /
            ((nonStopTokens (tokensOf ("The cat sat on the mat.".toList))).length : ℝ)) +
      0.20 * ((((adjPairs (tokensOf ("The cat sat on the mat.".toList))).map
            (fun p => (fun _ => (2 : Nat)) (phraseKey p.1 p.2))).sum : ℝ) /
          ((tokensOf ("The cat sat on the mat.".toList)).length : ℝ)) +
      0.20 * (if ((1 : Nat) : ℝ) / ((3 : Nat) : ℝ) < 0.2 then
            1 - ((1 : Nat) : ℝ) / (((3 : Nat) : ℝ) * 0.2)
          else if ((1 : Nat) : ℝ) / ((3 : Nat) : ℝ) > 0.8 then
            (((1 : Nat) : ℝ) - ((3 : Nat) : ℝ) * 0.8) / (((3 : Nat) : ℝ) * 0.2)
          else 0.2) +
      0.15 * Real.exp (-(|((tokensOf ("The cat sat on the mat.".toList)).length : ℝ) - 20| / 20)) +
      0.15 * (((nonStopTokens (tokensOf ("The cat sat on the mat.".toList))).dedup.length : ℝ) /
          ((tokensOf ("The cat sat on the mat.".toList)).length : ℝ)) :=
  ⟨by norm_num, by decide,
    c6_composite_score (fun _ => 1) (fun _ => 2) 3 1 ("The cat sat on the mat.".toList)
      (by norm_num) (by decide)⟩

/-- C10: every sentence that reaches scoring has at least one word
token, so every denominator in the scorer — including the unguarded
token-count denominator of the diversity score — is positive, and the
composite score is well defined.  This needs the segmentation
structure: the filter alone does not force a word token, but a
surviving sentence over the normalized alphabet with at least 4
whitespace-delimited fields must contain one. -/
theorem c10_scoring_denominators (text : List Char) (s : List Char)
    (hs : s ∈ validSentencesOf text) :
    tokensOf s ≠ [] ∧ 0 < (tokensOf s).length ∧ ((tokensOf s).length : ℚ) ≠ 0 := by
  have h := validSentences_tokens_ne_nil text s hs
  refine ⟨h, ?_, ?_⟩
  · cases htok : tokensOf s with
    | nil => exact absurd htok h
    | cons a t => simp
  · have : 0 < (tokensOf s).length := by
      cases htok : tokensOf s with
      | nil => exact absurd htok h
      | cons a t => simp
    exact_mod_cast Nat.pos_iff_ne_zero.mp this

set_option maxRecDepth 40000 in
/-- Witness for C10 at a concrete surviving sentence. -/
theorem c10_scoring_denominators_witness :
    ("This is a perfectly fine sentence for a test.".toList ∈
      validSentencesOf ("This is a perfectly fine sentence for a test.".toList)) ∧
    (tokensOf ("This is a perfectly fine sentence for a test.".toList) ≠ [] ∧
     0 < (tokensOf ("This is a perfectly fine sentence for a test.".toList)).length ∧
     ((tokensOf ("This is a perfectly fine sentence for a test.".toList)).length : ℚ) ≠ 0) :=
  ⟨by decide, c10_scoring_denominators ("This is a perfectly fine sentence for a test.".toList)
    ("This is a perfectly fine sentence for a test.".toList) (by decide)⟩

/-- C8 counterexample: normalization is not idempotent.  Removing the
`@` of `"a @ b"` in step 6 leaves a double space that step 5 would have
collapsed, so a second normalization changes the string again. -/
theorem c8_not_idempotent :
    normalizeText (normalizeText ("a @ b".toList)) ≠ normalizeText ("a @ b".toList) := by
  decide

/-- C8 amended: one application of normalization is not idempotent
(see the counterexample), but two are: a twice-normalized string
contains only word characters, single non-adjacent spaces and `.!?`,
and is a fixed point of every cleaning pass. -/
theorem c8_double_normalize_idempotent (x : List Char) :
    normalizeText (normalizeText (normalizeText x)) = normalizeText (normalizeText x) := by
  have hky : ∀ c ∈ normalizeText x, isKeep c = true := fun c hc => mem_normalizeText_keep hc
  have hkz : ∀ c ∈ normalizeText (normalizeText x), isKeep c = true :=
    fun c hc => mem_normalizeText_keep hc
  have hz : normalizeText (normalizeText x) = trimChars (collapseWs (normalizeText x)) :=
    normalizeText_of_keep hky
  rw [normalizeText_of_keep hkz, hz]
  obtain ⟨hP1, hP2, _⟩ := collapse_props (normalizeText x) false
  have hinfix := trimChars_part (collapseWs (normalizeText x))
  have hP1' : ∀ c ∈ trimChars (collapseWs (normalizeText x)), isSpaceChar c = true → c = ' ' :=
    fun c hc => hP1 c (mem_of_mem_trimChars hc)
  have hP2' := hP2.infix hinfix
  rw [collapse_eq_self _ hP1' hP2']
  exact trimChars_trim _

end QwikRead
